import Mathlib

/-!
# Verification of the code-review service `main.py`

A shallow embedding of the Python source.  Python strings are modelled as
lists of Unicode code points (`List Nat`); newline is code point 10, the
hash sign 35.  Python `float` arithmetic in the quality scorer is modelled
by exact rationals, and Python `round(x, 2)` by rounding the rational to
two decimal places.  Character case operations model the ASCII range, and
whitespace is the ASCII whitespace set, matching the characters the
program's own prompts and tables use.  The LLM agent is an opaque external
collaborator: the stream generator receives either the text extracted from
its reply or the exception raised while producing it (all fallible
operations in `generate_review_stream` precede the first `yield`), so the
generator is embedded as a function from `Except` to the list of emitted
JSON frames.
-/

/-- A Python string: its list of Unicode code points. -/
abbrev Str := List Nat

/-- Helper to write `Str` literals. -/
def ofString (s : String) : Str := s.toList.map Char.toNat

/-- ASCII lower-casing of one code point (Python `str.lower`). -/
def lowerChar (c : Nat) : Nat := if 65 ≤ c ∧ c ≤ 90 then c + 32 else c

/-- ASCII upper-casing of one code point (Python `str.upper`). -/
def upperChar (c : Nat) : Nat := if 97 ≤ c ∧ c ≤ 122 then c - 32 else c

/-- Python `s.lower()`. -/
def toLower (s : Str) : Str := s.map lowerChar

/-- Python `s.upper()`. -/
def toUpper (s : Str) : Str := s.map upperChar

/-- ASCII whitespace, the set matched by `str.strip` and by `\s` in the regex. -/
def isSpace (c : Nat) : Bool := c == 32 || c == 9 || c == 10 || c == 13 || c == 11 || c == 12

/-- Python `s.strip()`: remove leading and trailing whitespace. -/
def strip (s : Str) : Str := ((s.dropWhile isSpace).reverse.dropWhile isSpace).reverse

/-- Python `sub in s`: substring containment. -/
def inStr (sub : Str) : Str → Bool
  | [] => sub.isEmpty
  | c :: rest => sub.isPrefixOf (c :: rest) || inStr sub rest

/-- Python `s.split(chr(10))` (the `code.split` on newline in the source). -/
def splitLines : Str → List Str
  | [] => [[]]
  | c :: rest =>
    match splitLines rest with
    | [] => [[]]
    | l :: ls => if c = 10 then [] :: l :: ls else (c :: l) :: ls

/-- Character is not the newline separator (used to characterise `splitLines`). -/
def notNewline (c : Nat) : Bool := !(c == 10)

/-- The lines of `s` after its first line. -/
def lineTail (s : Str) : List Str :=
  match s.dropWhile notNewline with
  | [] => []
  | _ :: r => splitLines r

/-- The left-to-right scan of Python `s.count(t)` for non-empty `t`:
`skip` counts the remaining characters of the previous match, during which
no new match may begin (non-overlapping occurrences). -/
def countGo (t : Str) : Str → Nat → Nat
  | [], _ => 0
  | _ :: rest, skip + 1 => countGo t rest skip
  | c :: rest, 0 =>
    if t.isPrefixOf (c :: rest) then 1 + countGo t rest (t.length - 1) else countGo t rest 0

/-- Python `s.count(t)` (an empty `t` yields `len(s) + 1`). -/
def countOcc (t s : Str) : Nat := if t = [] then s.length + 1 else countGo t s 0

/-- One entry of the Python `findings` list of `analyze_security_patterns`. -/
structure Finding where
  indicator : Str
  severity : String
  description : String
  found : Bool
deriving DecidableEq

/-- The return dictionary of `analyze_security_patterns`: either the
`error`-only dictionary or the full result dictionary. -/
inductive SecurityResult where
  | error (msg : String)
  | ok (pattern_type : String) (findings : List Finding) (total_findings : Nat) (severity : String)
deriving DecidableEq

/-- The `patterns` table of `analyze_security_patterns`: indicators, severity,
description, looked up by pattern type. -/
def patternInfo (pattern_type : String) : Option (List Str × String × String) :=
  if pattern_type = "sql_injection" then
    some ([ofString "execute(", ofString "query(", ofString "raw(", ofString "filter(",
           ofString "SELECT", ofString "INSERT", ofString "UPDATE", ofString "DELETE"],
          "Critical", "Potential SQL injection vulnerability detected")
  else if pattern_type = "xss" then
    some ([ofString "innerHTML", ofString "dangerouslySetInnerHTML", ofString "document.write",
           ofString "eval("],
          "High", "Potential XSS vulnerability detected")
  else if pattern_type = "auth" then
    some ([ofString "password", ofString "token", ofString "session", ofString "auth",
           ofString "login", ofString "credential"],
          "High", "Authentication/Authorization pattern detected")
  else if pattern_type = "secrets" then
    some ([ofString "api_key", ofString "secret", ofString "password =", ofString "token =",
           ofString "AWS_", ofString "SECRET_KEY"],
          "Critical", "Potential hardcoded secrets detected")
  else if pattern_type = "csrf" then
    some ([ofString "POST", ofString "PUT", ofString "DELETE", ofString "form", ofString "csrf"],
          "Medium", "CSRF protection check required")
  else if pattern_type = "input_validation" then
    some ([ofString "input(", ofString "request.", ofString "params", ofString "query",
           ofString "body"],
          "High", "Input validation required")
  else none

/-- The six keys of the `patterns` dictionary. -/
def knownPatternTypes : List String :=
  ["sql_injection", "xss", "auth", "secrets", "csrf", "input_validation"]

/-- `analyze_security_patterns` from `main.py`. -/
def analyze_security_patterns (code : Str) (pattern_type : String) : SecurityResult :=
  match patternInfo pattern_type with
  | none => .error ("Unknown pattern type: " ++ pattern_type)
  | some (inds, sev, desc) =>
    let findings := (inds.filter fun ind => inStr (toLower ind) (toLower code)).map
      fun ind => { indicator := ind, severity := sev, description := desc, found := true : Finding }
    .ok pattern_type findings findings.length (if findings.isEmpty then "None" else sev)

/-- The return dictionary of `calculate_complexity_metrics`. -/
structure ComplexityMetrics where
  total_lines : Nat
  nested_loops : Nat
  database_queries : Nat
  async_operations : Nat
  blocking_operations : Nat
  max_nesting_level : Nat
  complexity_score : Nat
  complexity_level : String
  performance_impact : String
deriving DecidableEq

/-- The `loops` keyword list in `calculate_complexity_metrics`. -/
def loopKeywords : List Str := [ofString "for ", ofString "while ", ofString "foreach"]

/-- One iteration of the nesting-tracking loop of `calculate_complexity_metrics`;
the state is `(nesting_level, max_nesting, nested_loops)`.  `nesting_level`
never goes below zero in the source (`max(0, nesting_level - 1)`), which
truncated `Nat` subtraction models exactly. -/
def nestStep (st : Nat × Nat × Nat) (line : Str) : Nat × Nat × Nat :=
  let st1 :=
    if loopKeywords.any (fun lp => inStr lp (toLower line)) then
      (st.1 + 1, max st.2.1 (st.1 + 1), if st.1 + 1 > 1 then st.2.2 + 1 else st.2.2)
    else st
  if inStr (ofString "\x7d") line || inStr (ofString "end") (toLower line) then
    (st1.1 - 1, st1.2.1, st1.2.2)
  else st1

/-- `calculate_complexity_metrics` from `main.py`. -/
def calculate_complexity_metrics (code : Str) : ComplexityMetrics :=
  let lines := splitLines code
  let total_lines := lines.length
  let db_queries := countOcc (ofString "query") (toLower code)
    + countOcc (ofString "select") (toLower code) + countOcc (ofString "find(") (toLower code)
  let st := lines.foldl nestStep (0, 0, 0)
  let nested_loops := st.2.2
  let max_nesting := st.2.1
  let async_operations := countOcc (ofString "async") (toLower code)
    + countOcc (ofString "await") (toLower code) + countOcc (ofString "promise") (toLower code)
  let blocking_operations := countOcc (ofString "sleep") (toLower code)
    + countOcc (ofString "thread.") (toLower code) + countOcc (ofString "lock") (toLower code)
  let complexity_score := nested_loops * 3 + db_queries * 2 + blocking_operations * 4
    + max_nesting * 2
  { total_lines := total_lines
    nested_loops := nested_loops
    database_queries := db_queries
    async_operations := async_operations
    blocking_operations := blocking_operations
    max_nesting_level := max_nesting
    complexity_score := complexity_score
    complexity_level :=
      if complexity_score > 20 then "High"
      else if complexity_score > 10 then "Medium" else "Low"
    performance_impact :=
      if complexity_score > 20 then "Significant performance issues likely"
      else if complexity_score > 10 then "Moderate performance concerns"
      else "Good performance characteristics" }

/-- The return dictionary of `assess_code_quality_metrics`; the float fields
are modelled as exact rationals. -/
structure QualityMetrics where
  total_lines : Nat
  comment_lines : Nat
  comment_ratio : ℚ
  long_lines : Nat
  function_count : Nat
  avg_function_length : ℚ
  has_error_handling : Bool
  has_documentation : Bool
  naming_issues : List String
  quality_score : ℚ
  quality_level : String
deriving DecidableEq

/-- Python `round(x, 2)` on the rational model. -/
def round2 (q : ℚ) : ℚ := (round (q * 100) : ℚ) / 100

/-- The substring list of the naming-issues check in `assess_code_quality_metrics`. -/
def namingTokens : List Str :=
  [ofString "a=", ofString "b=", ofString "x=", ofString "y=", ofString "temp=", ofString "tmp="]

/-- `assess_code_quality_metrics` from `main.py`. -/
def assess_code_quality_metrics (code : Str) : QualityMetrics :=
  let lines := splitLines code
  let total_lines := (lines.filter fun l => !(strip l).isEmpty).length
  let comment_lines := (lines.filter fun l =>
    (ofString "#").isPrefixOf (strip l) || (ofString "//").isPrefixOf (strip l)).length
  let long_lines := (lines.filter fun l => l.length > 100).length
  let function_count := countOcc (ofString "def ") (toLower code)
    + countOcc (ofString "function ") (toLower code) + countOcc (ofString "const ") (toLower code)
    + countOcc (ofString "let ") (toLower code) + countOcc (ofString "var ") (toLower code)
  let avg_function_length : ℚ := (total_lines : ℚ) / (max function_count 1 : ℚ)
  let naming_issues : List String :=
    if namingTokens.any (fun t => inStr t code) then ["Short/unclear variable names detected"]
    else []
  let has_error_handling := inStr (ofString "try") (toLower code) &&
    (inStr (ofString "catch") (toLower code) || inStr (ofString "except") (toLower code))
  let has_documentation := inStr (ofString "\"\"\"") code || inStr (ofString "///") code
    || inStr (ofString "/**") code
  let comment_ratio : ℚ := (comment_lines : ℚ) / (max total_lines 1 : ℚ) * 100
  let quality_score : ℚ :=
    min 30 (comment_ratio * 3) + (if has_error_handling then 20 else 0)
    + (if has_documentation then 15 else 0)
    + (if avg_function_length < 30 then 20 else if avg_function_length < 50 then 10 else 0)
    + (if (long_lines : ℚ) < (total_lines : ℚ) * (1 / 10) then 15 else 5)
  { total_lines := total_lines
    comment_lines := comment_lines
    comment_ratio := round2 comment_ratio
    long_lines := long_lines
    function_count := function_count
    avg_function_length := round2 avg_function_length
    has_error_handling := has_error_handling
    has_documentation := has_documentation
    naming_issues := naming_issues
    quality_score := round2 quality_score
    quality_level :=
      if quality_score > 70 then "High" else if quality_score > 40 then "Medium" else "Low" }

/-- The alternation of the section-header regex, in source order. -/
def phrases : List Str :=
  [ofString "SECURITY ANALYSIS", ofString "PERFORMANCE ANALYSIS",
   ofString "READABILITY ANALYSIS", ofString "COMPREHENSIVE SUMMARY"]

/-- One attempted match of the regex pattern of `parse_sections` at the head of
`s`: two hash signs, then at least one whitespace character (greedy, so the
whole run, since no alternative begins with whitespace), then the first
alternative that matches case-insensitively.  Returns the captured group (in
original case) and the remainder after the match. -/
def matchHeaderAt : Str → Option (Str × Str)
  | c1 :: c2 :: rest =>
    if c1 = 35 ∧ c2 = 35 then
      if (rest.takeWhile isSpace).isEmpty then none
      else
        match phrases.find? (fun p =>
            (toLower p).isPrefixOf (toLower (rest.dropWhile isSpace))) with
        | some p =>
          some ((rest.dropWhile isSpace).take p.length, (rest.dropWhile isSpace).drop p.length)
        | none => none
    else none
  | _ => none

/-- The left-to-right non-overlapping scan of `re.split` with one capturing
group: `acc` holds the current unmatched piece reversed, and `skip` counts the
characters of the previous match still to be consumed, inside which no new
match may begin. -/
def scanGo : Str → Nat → Str → List Str
  | acc, _, [] => [acc.reverse]
  | acc, skip + 1, _ :: rest => scanGo acc skip rest
  | acc, 0, c :: rest =>
    match matchHeaderAt (c :: rest) with
    | some capAfter =>
      acc.reverse :: capAfter.1 :: scanGo [] ((c :: rest).length - capAfter.2.length - 1) rest
    | none => scanGo (c :: acc) 0 rest

/-- `re.split(pattern, s, flags=re.IGNORECASE)` for the header pattern:
pieces alternating with captured groups. -/
def splitHeaders (s : Str) : List Str := scanGo [] 0 s

/-- The `sections` dictionary of `parse_sections`: it always has exactly the
keys `security`, `performance`, `readability`, `summary`. -/
structure Sections where
  security : Str
  performance : Str
  readability : Str
  summary : Str
deriving DecidableEq

/-- One iteration of the update loop of `parse_sections` on a
(captured header, following text) pair. -/
def sectionUpdate (secs : Sections) (name content : Str) : Sections :=
  if inStr (ofString "SECURITY") (toUpper (strip name)) then
    { secs with security := strip content }
  else if inStr (ofString "PERFORMANCE") (toUpper (strip name)) then
    { secs with performance := strip content }
  else if inStr (ofString "READABILITY") (toUpper (strip name)) then
    { secs with readability := strip content }
  else if inStr (ofString "SUMMARY") (toUpper (strip name))
      || inStr (ofString "COMPREHENSIVE") (toUpper (strip name)) then
    { secs with summary := strip content }
  else secs

/-- The `for i in range(1, len(parts), 2)` loop of `parse_sections`: consume
(header, text) pairs; a dangling last element (the `i + 1 < len(parts)` guard)
is ignored. -/
def pairLoop (secs : Sections) : List Str → Sections
  | name :: content :: rest => pairLoop (sectionUpdate secs name content) rest
  | _ => secs

/-- `parse_sections` from `main.py`. -/
def parse_sections (full_response : Str) : Sections :=
  match splitHeaders full_response with
  | [] => ⟨[], [], [], []⟩
  | _ :: rest => pairLoop ⟨[], [], [], []⟩ rest

/-- The four section kinds of the response grammar. -/
inductive SectionKind where
  | security
  | performance
  | readability
  | summary
deriving DecidableEq

/-- The canonical header phrase of a section kind. -/
def phraseOf : SectionKind → Str
  | .security => ofString "SECURITY ANALYSIS"
  | .performance => ofString "PERFORMANCE ANALYSIS"
  | .readability => ofString "READABILITY ANALYSIS"
  | .summary => ofString "COMPREHENSIVE SUMMARY"

/-- One matched header occurrence of the input, as the response grammar sees
it: the kind, the whitespace run after `##`, the case variant of the phrase
actually written, and the body text up to the next matched header (or the end
of the input). -/
structure Piece where
  kind : SectionKind
  ws : Str
  v : Str
  body : Str

/-- The exact text a piece occupies in the input. -/
def pieceText (pc : Piece) : Str := 35 :: 35 :: (pc.ws ++ (pc.v ++ pc.body))

/-- The input text from a list of pieces. -/
def restAssemble (ps : List Piece) : Str := (ps.map pieceText).flatten

/-- An input: a header-free prelude followed by the pieces. -/
def assemble (p₀ : Str) (ps : List Piece) : Str := p₀ ++ restAssemble ps

/-- Update one section field by kind. -/
def setK (secs : Sections) : SectionKind → Str → Sections
  | .security, t => { secs with security := t }
  | .performance, t => { secs with performance := t }
  | .readability, t => { secs with readability := t }
  | .summary, t => { secs with summary := t }

/-- Read one section field by kind. -/
def getK (secs : Sections) : SectionKind → Str
  | .security => secs.security
  | .performance => secs.performance
  | .readability => secs.readability
  | .summary => secs.summary

/-- No header match begins at any position inside `p` when the input
continues with `rest`. -/
def noStrayB (p rest : Str) : Bool :=
  (List.range p.length).all fun i => (matchHeaderAt ((p ++ rest).drop i)).isNone

/-- Well-formedness of a decomposition: each piece has a non-empty all-space
whitespace run, a case variant of its kind's phrase, and a body inside which
no header match begins. -/
def wfPieces : List Piece → Bool
  | [] => true
  | pc :: rest =>
    !pc.ws.isEmpty && pc.ws.all isSpace
      && (toLower pc.v == toLower (phraseOf pc.kind))
      && noStrayB pc.body (restAssemble rest) && wfPieces rest

/-- One JSON frame of the event stream: the `type` key and the optional
`section`, `content` and `message` keys (`type` and `section` are Lean
keywords, hence the field names `ftype` and `sect`). -/
structure Frame where
  ftype : String
  sect : Option String
  content : Option Str
  message : Option Str
deriving DecidableEq

/-- The `section_order` list of `generate_review_stream`. -/
def sectionOrder : List String := ["security", "performance", "readability", "summary"]

/-- The dictionary access `sections[section_name]`. -/
def getSection (secs : Sections) (name : String) : Str :=
  if name = "security" then secs.security
  else if name = "performance" then secs.performance
  else if name = "readability" then secs.readability
  else if name = "summary" then secs.summary
  else []

/-- The fixed fallback text for an empty section. -/
def noIssues : Str := ofString "No specific issues found in this category."

/-- The chunking loop `for i in range(0, len(content), 50): content[i:i+50]`. -/
def chunks50 (s : Str) : List Str :=
  (List.range ((s.length + 49) / 50)).map fun k => (s.drop (50 * k)).take 50

/-- A `section_start` frame. -/
def startFrame (name : String) : Frame := ⟨"section_start", some name, none, none⟩

/-- A `content` frame. -/
def contentFrame (name : String) (txt : Str) : Frame := ⟨"content", some name, some txt, none⟩

/-- A `section_complete` frame. -/
def doneFrame (name : String) : Frame := ⟨"section_complete", some name, none, none⟩

/-- The terminal `complete` frame. -/
def completeFrame : Frame := ⟨"complete", none, none, none⟩

/-- An `error` frame. -/
def errorFrame (msg : Str) : Frame := ⟨"error", none, none, some msg⟩

/-- The five frame types of the stream protocol. -/
def frameTypes : List String :=
  ["section_start", "content", "section_complete", "complete", "error"]

/-- The content payloads of the `content` frames of one section, in emission
order. -/
def contentsOf (fs : List Frame) (name : String) : List Str :=
  fs.filterMap fun f => if f.ftype = "content" ∧ f.sect = some name then f.content else none

/-- Every field of the dictionary is already stripped. -/
def StrippedSecs (secs : Sections) : Prop :=
  strip secs.security = secs.security ∧ strip secs.performance = secs.performance ∧
    strip secs.readability = secs.readability ∧ strip secs.summary = secs.summary

/-- The `content` frames emitted for one section: the 50-character chunks of
the stripped text, or the fixed fallback frame if the stripped text is empty. -/
def contentBlock (secs : Sections) (name : String) : List Frame :=
  let content := strip (getSection secs name)
  if content ≠ [] then (chunks50 content).map (contentFrame name)
  else [contentFrame name noIssues]

/-- All frames emitted for one section. -/
def sectionFrames (secs : Sections) (name : String) : List Frame :=
  startFrame name :: (contentBlock secs name ++ [doneFrame name])

/-- A Python exception, reduced to what the handler reports:
`type(e).__name__` and `str(e)`. -/
structure PyExn where
  name : Str
  msg : Str

/-- `generate_review_stream` from `main.py`, as the list of JSON frames it
yields.  The argument is the outcome of the agent invocation and text
extraction (the fallible part, which precedes the first `yield`): on success
the four sections are parsed and streamed followed by one `complete` frame;
on an exception a single `error` frame carrying type name and message is
emitted. -/
def generate_review_stream (result : Except PyExn Str) : List Frame :=
  match result with
  | .ok full_analysis =>
    (sectionOrder.flatMap fun name => sectionFrames (parse_sections full_analysis) name)
      ++ [completeFrame]
  | .error e => [errorFrame (e.name ++ ofString ": " ++ e.msg)]

/-- A call to one of the three analysis tool functions, with its arguments.
The Python functions read and write no state outside their parameters and
locals (they reference no globals and no mutable captured state), so a call
is fully described by its arguments. -/
inductive AnalysisCall where
  | security (code : Str) (pattern_type : String)
  | complexity (code : Str)
  | quality (code : Str)
deriving DecidableEq

/-- The result of one analysis call. -/
inductive AnalysisResult where
  | security (r : SecurityResult)
  | complexity (r : ComplexityMetrics)
  | quality (r : QualityMetrics)
deriving DecidableEq

/-- Dispatch one analysis call. -/
def evalCall : AnalysisCall → AnalysisResult
  | .security c pt => .security (analyze_security_patterns c pt)
  | .complexity c => .complexity (calculate_complexity_metrics c)
  | .quality c => .quality (assess_code_quality_metrics c)

/-- A sequence of analysis calls, executed in order: since the functions
touch no ambient state, each call's result is obtained from its own
arguments alone. -/
def runCalls (calls : List AnalysisCall) : List AnalysisResult := calls.map evalCall

/-! ## General lemmas about the string model -/

theorem inStr_iff {sub s : Str} : inStr sub s = true ↔ sub <:+: s := by
  induction s with
  | nil => simp [inStr]
  | cons c rest ih =>
    simp [inStr, Bool.or_eq_true, List.isPrefixOf_iff_prefix, ih, List.infix_cons_iff]

/-- C2: if an exception is raised (during model invocation, extraction or
parsing), the stream is exactly one `error` frame whose message is the
exception's type name, `": "`, and the exception's message, and no
`complete` frame is ever emitted. -/
theorem C2_error_frame (e : PyExn) :
    generate_review_stream (.error e) = [errorFrame (e.name ++ ofString ": " ++ e.msg)] ∧
    (errorFrame (e.name ++ ofString ": " ++ e.msg)).ftype = "error" ∧
    ∀ f ∈ generate_review_stream (.error e), f.ftype ≠ "complete" := by
  refine ⟨rfl, rfl, ?_⟩
  intro f hf
  simp only [generate_review_stream, List.mem_singleton] at hf
  subst hf
  simp [errorFrame]

theorem C2_error_frame_witness :
    generate_review_stream (.error ⟨ofString "ValueError", ofString "boom"⟩) =
      [errorFrame (ofString "ValueError" ++ ofString ": " ++ ofString "boom")] :=
  (C2_error_frame ⟨ofString "ValueError", ofString "boom"⟩).1

/-- C10: an unknown pattern type yields the dictionary that carries only the
`error` message naming the unknown type, with no findings, total or severity
fields. -/
theorem C10_unknown_pattern (code : Str) (pattern_type : String)
    (h : pattern_type ∉ knownPatternTypes) :
    analyze_security_patterns code pattern_type =
      .error ("Unknown pattern type: " ++ pattern_type) := by
  simp only [knownPatternTypes, List.mem_cons, List.not_mem_nil, or_false, not_or] at h
  obtain ⟨h1, h2, h3, h4, h5, h6⟩ := h
  simp [analyze_security_patterns, patternInfo, h1, h2, h3, h4, h5, h6]

theorem C10_unknown_pattern_witness :
    "bogus" ∉ knownPatternTypes ∧
      analyze_security_patterns [] "bogus" = .error ("Unknown pattern type: " ++ "bogus") :=
  ⟨by decide, C10_unknown_pattern [] "bogus" (by decide)⟩

/-- C7: the three analysis functions are deterministic and stateless — equal
arguments give equal results, and in any sequence of calls the result at a
given position depends only on that call's own arguments, never on the calls
made before it. -/
theorem C7_stateless_deterministic :
    (∀ c₁ c₂ : AnalysisCall, c₁ = c₂ → evalCall c₁ = evalCall c₂) ∧
    ∀ (pre₁ pre₂ post₁ post₂ : List AnalysisCall) (c : AnalysisCall),
      (runCalls (pre₁ ++ c :: post₁))[pre₁.length]? =
        (runCalls (pre₂ ++ c :: post₂))[pre₂.length]? := by
  constructor
  · intro c₁ c₂ h; rw [h]
  · have h : ∀ (pre post : List AnalysisCall) (c : AnalysisCall),
        (runCalls (pre ++ c :: post))[pre.length]? = some (evalCall c) := by
      intro pre post c
      rw [runCalls, List.map_append, List.map_cons,
        List.getElem?_append_right (by simp)]
      simp
    intro pre₁ pre₂ post₁ post₂ c
    rw [h, h]

theorem C7_stateless_deterministic_witness :
    evalCall (.complexity (ofString "x")) = evalCall (.complexity (ofString "x")) :=
  C7_stateless_deterministic.1 _ _ rfl

theorem countP_filter_nodup {p : Str → Bool} {inds : List Str} (hnd : inds.Nodup)
    {ind : Str} (hind : ind ∈ inds) :
    (inds.filter p).countP (fun i => i == ind) = if p ind then 1 else 0 := by
  induction inds with
  | nil => cases hind
  | cons a t ih =>
    rw [List.nodup_cons] at hnd
    obtain ⟨hat, hndt⟩ := hnd
    have hzero : ∀ q : Str → Bool, a ∉ t → (t.filter q).countP (fun i => i == a) = 0 := by
      intro q ha
      rw [List.countP_eq_zero]
      intro b hb
      simp only [beq_iff_eq]
      rintro rfl
      exact ha (List.mem_of_mem_filter hb)
    rcases List.mem_cons.mp hind with rfl | hmem
    · by_cases hpa : p ind
      · rw [List.filter_cons_of_pos hpa, List.countP_cons, hzero p hat, hpa, if_pos rfl]
        simp
      · rw [List.filter_cons_of_neg hpa, hzero p hat, if_neg hpa]
    · have hne : a ≠ ind := fun h => hat (h ▸ hmem)
      by_cases hpa : p a
      · rw [List.filter_cons_of_pos hpa, List.countP_cons, ih hndt hmem]
        simp [hne]
      · rw [List.filter_cons_of_neg hpa, ih hndt hmem]

theorem analyze_findings_spec (code : Str) (pt : String) (inds : List Str) (sev desc : String)
    (hpi : patternInfo pt = some (inds, sev, desc)) (hnd : inds.Nodup) :
    ∃ findings,
      analyze_security_patterns code pt =
        .ok pt findings findings.length (if findings.isEmpty then "None" else sev) ∧
      findings.length = inds.countP (fun ind => inStr (toLower ind) (toLower code)) ∧
      (∀ ind ∈ inds, findings.countP (fun f => f.indicator == ind) =
        if inStr (toLower ind) (toLower code) then 1 else 0) ∧
      ∀ f ∈ findings, f.indicator ∈ inds ∧ inStr (toLower f.indicator) (toLower code) = true ∧
        f.severity = sev ∧ f.description = desc ∧ f.found = true := by
  refine ⟨(inds.filter fun ind => inStr (toLower ind) (toLower code)).map
    (fun ind => { indicator := ind, severity := sev, description := desc, found := true }),
    ?_, ?_, ?_, ?_⟩
  · simp [analyze_security_patterns, hpi]
  · rw [List.length_map, List.countP_eq_length_filter]
  · intro ind hind
    rw [List.countP_map]
    exact countP_filter_nodup hnd hind
  · intro f hf
    simp only [List.mem_map, List.mem_filter] at hf
    obtain ⟨ind, ⟨hmem, hp⟩, rfl⟩ := hf
    exact ⟨hmem, hp, rfl, rfl, rfl⟩

/-- C5: for each of the six known pattern types, `analyze_security_patterns`
returns exactly one finding per indicator of that pattern's table whose
lowercased form occurs in the lowercased code, `total_findings` equal to the
number of findings, and severity the pattern's fixed severity if there is at
least one finding and `"None"` otherwise. -/
theorem C5_security_findings (code : Str) (pattern_type : String)
    (h : pattern_type ∈ knownPatternTypes) :
    ∃ inds sev desc,
      patternInfo pattern_type = some (inds, sev, desc) ∧
      ∃ findings,
        analyze_security_patterns code pattern_type =
          .ok pattern_type findings findings.length (if findings.isEmpty then "None" else sev) ∧
        findings.length = inds.countP (fun ind => inStr (toLower ind) (toLower code)) ∧
        (∀ ind ∈ inds, findings.countP (fun f => f.indicator == ind) =
          if inStr (toLower ind) (toLower code) then 1 else 0) ∧
        ∀ f ∈ findings, f.indicator ∈ inds ∧ inStr (toLower f.indicator) (toLower code) = true ∧
          f.severity = sev ∧ f.description = desc ∧ f.found = true := by
  simp only [knownPatternTypes, List.mem_cons, List.not_mem_nil, or_false] at h
  rcases h with rfl | rfl | rfl | rfl | rfl | rfl <;>
    exact ⟨_, _, _, by simp [patternInfo], analyze_findings_spec code _ _ _ _ rfl (by decide)⟩

theorem C5_security_findings_witness :
    "sql_injection" ∈ knownPatternTypes ∧
    ∃ inds sev desc,
      patternInfo "sql_injection" = some (inds, sev, desc) ∧
      ∃ findings,
        analyze_security_patterns (ofString "SELECT 1") "sql_injection" =
          .ok "sql_injection" findings findings.length
            (if findings.isEmpty then "None" else sev) ∧
        findings.length =
          inds.countP (fun ind => inStr (toLower ind) (toLower (ofString "SELECT 1"))) ∧
        (∀ ind ∈ inds, findings.countP (fun f => f.indicator == ind) =
          if inStr (toLower ind) (toLower (ofString "SELECT 1")) then 1 else 0) ∧
        ∀ f ∈ findings, f.indicator ∈ inds ∧
          inStr (toLower f.indicator) (toLower (ofString "SELECT 1")) = true ∧
          f.severity = sev ∧ f.description = desc ∧ f.found = true :=
  ⟨by decide, C5_security_findings (ofString "SELECT 1") "sql_injection" (by decide)⟩

theorem chunks50_ne_nil {s : Str} (h : s ≠ []) : chunks50 s ≠ [] := by
  have hlen : 1 ≤ (s.length + 49) / 50 := by
    have := List.length_pos.mpr h
    omega
  simp only [chunks50, ne_eq, List.map_eq_nil_iff, List.range_eq_nil]
  omega

theorem contentBlock_ne_nil (secs : Sections) (name : String) :
    contentBlock secs name ≠ [] := by
  rw [contentBlock]
  split
  · next h => simpa using chunks50_ne_nil h
  · simp

theorem contentBlock_mem (secs : Sections) (name : String) (f : Frame)
    (hf : f ∈ contentBlock secs name) : f.ftype = "content" ∧ f.sect = some name := by
  rw [contentBlock] at hf
  split at hf
  · obtain ⟨ch, -, rfl⟩ := List.mem_map.mp hf
    exact ⟨rfl, rfl⟩
  · rw [List.mem_singleton] at hf
    subst hf
    exact ⟨rfl, rfl⟩

theorem mem_sectionFrames_ftype (secs : Sections) (name : String) (f : Frame)
    (hf : f ∈ sectionFrames secs name) :
    f.ftype = "section_start" ∨ f.ftype = "content" ∨ f.ftype = "section_complete" := by
  rw [sectionFrames] at hf
  rcases List.mem_cons.mp hf with rfl | hf
  · exact Or.inl rfl
  · rcases List.mem_append.mp hf with hf | hf
    · exact Or.inr (Or.inl (contentBlock_mem secs name f hf).1)
    · rw [List.mem_singleton] at hf
      subst hf
      exact Or.inr (Or.inr rfl)

theorem countP_complete_sectionFrames (secs : Sections) (name : String) :
    (sectionFrames secs name).countP (fun f => f.ftype == "complete") = 0 := by
  rw [List.countP_eq_zero]
  intro f hf
  rcases mem_sectionFrames_ftype secs name f hf with h | h | h <;> simp [h]

/-- C1: on success the stream is, in the fixed order security, performance,
readability, summary: one `section_start` frame, at least one `content`
frame, one `section_complete` frame per section, then exactly one terminal
`complete` frame, and every frame type is one of the five protocol types. -/
theorem C1_stream_order (full : Str) :
    (∃ c₁ c₂ c₃ c₄ : List Frame,
      generate_review_stream (.ok full) =
        (startFrame "security" :: c₁ ++ [doneFrame "security"])
          ++ (startFrame "performance" :: c₂ ++ [doneFrame "performance"])
          ++ (startFrame "readability" :: c₃ ++ [doneFrame "readability"])
          ++ (startFrame "summary" :: c₄ ++ [doneFrame "summary"])
          ++ [completeFrame] ∧
      (c₁ ≠ [] ∧ c₂ ≠ [] ∧ c₃ ≠ [] ∧ c₄ ≠ []) ∧
      ∀ f ∈ c₁ ++ c₂ ++ c₃ ++ c₄, f.ftype = "content") ∧
    (∀ f ∈ generate_review_stream (.ok full), f.ftype ∈ frameTypes) ∧
    (generate_review_stream (.ok full)).countP (fun f => f.ftype == "complete") = 1 := by
  refine ⟨⟨contentBlock (parse_sections full) "security",
      contentBlock (parse_sections full) "performance",
      contentBlock (parse_sections full) "readability",
      contentBlock (parse_sections full) "summary", ?_,
      ⟨contentBlock_ne_nil _ _, contentBlock_ne_nil _ _,
       contentBlock_ne_nil _ _, contentBlock_ne_nil _ _⟩, ?_⟩, ?_, ?_⟩
  · simp [generate_review_stream, sectionOrder, sectionFrames, List.append_assoc]
  · intro f hf
    simp only [List.mem_append] at hf
    rcases hf with ((hf | hf) | hf) | hf <;>
      exact (contentBlock_mem _ _ _ hf).1
  · intro f hf
    simp only [generate_review_stream, sectionOrder, List.mem_append, List.mem_flatMap,
      List.mem_cons, List.not_mem_nil, or_false, List.mem_singleton] at hf
    rcases hf with ⟨name, -, hf⟩ | rfl
    · rcases mem_sectionFrames_ftype _ _ _ hf with h | h | h <;> simp [h, frameTypes]
    · simp [completeFrame, frameTypes]
  · simp only [generate_review_stream, sectionOrder, List.flatMap_cons, List.flatMap_nil,
      List.append_nil, List.countP_append, countP_complete_sectionFrames]
    simp [completeFrame]

theorem C1_stream_order_witness :
    (generate_review_stream (.ok ([] : Str))).countP (fun f => f.ftype == "complete") = 1 :=
  (C1_stream_order []).2.2

theorem getLast?_dropWhile_of_ne_nil (p : Nat → Bool) (l : Str) (h : l.dropWhile p ≠ []) :
    (l.dropWhile p).getLast? = l.getLast? := by
  obtain ⟨u, hu⟩ := List.dropWhile_suffix (l := l) p
  conv_rhs => rw [← hu]
  rw [List.getLast?_append]
  cases hx : (l.dropWhile p).getLast? with
  | none => exact absurd (List.getLast?_eq_none_iff.mp hx) h
  | some x => rfl

theorem head?_strip (s : Str) : ∀ c, (strip s).head? = some c → isSpace c = false := by
  intro c hc
  unfold strip at hc
  rw [List.head?_reverse] at hc
  by_cases hne : (s.dropWhile isSpace).reverse.dropWhile isSpace = []
  · rw [hne] at hc
    cases hc
  · rw [getLast?_dropWhile_of_ne_nil _ _ hne, List.getLast?_reverse] at hc
    have h := List.head?_dropWhile_not isSpace s
    rw [hc] at h
    exact h

theorem getLast?_strip (s : Str) : ∀ c, (strip s).getLast? = some c → isSpace c = false := by
  intro c hc
  unfold strip at hc
  rw [List.getLast?_reverse] at hc
  have h := List.head?_dropWhile_not isSpace (s.dropWhile isSpace).reverse
  rw [hc] at h
  exact h

theorem strip_eq_self_of (s : Str) (h1 : ∀ c, s.head? = some c → isSpace c = false)
    (h2 : ∀ c, s.getLast? = some c → isSpace c = false) : strip s = s := by
  unfold strip
  have hd : s.dropWhile isSpace = s := by
    cases s with
    | nil => rfl
    | cons a t => rw [List.dropWhile_cons, if_neg (by simp [h1 a rfl])]
  rw [hd]
  have hr : s.reverse.dropWhile isSpace = s.reverse := by
    cases hs : s.reverse with
    | nil => rfl
    | cons a t =>
      have ha : s.getLast? = some a := by rw [← List.head?_reverse, hs]; rfl
      rw [List.dropWhile_cons, if_neg (by simp [h2 a ha])]
  rw [hr, List.reverse_reverse]

theorem strip_strip (s : Str) : strip (strip s) = strip s :=
  strip_eq_self_of (strip s) (head?_strip s) (getLast?_strip s)

theorem strip_infix_self (s : Str) : strip s <:+: s := by
  have h1 : strip s <+: s.dropWhile isSpace := by
    unfold strip
    have h := List.reverse_prefix.mpr
      (List.dropWhile_suffix (p := isSpace) (l := (s.dropWhile isSpace).reverse))
    rwa [List.reverse_reverse] at h
  exact h1.isInfix.trans (List.dropWhile_suffix isSpace).isInfix

theorem sectionUpdate_stripped (secs : Sections) (h : StrippedSecs secs) (name content : Str) :
    StrippedSecs (sectionUpdate secs name content) := by
  obtain ⟨h1, h2, h3, h4⟩ := h
  unfold sectionUpdate StrippedSecs
  split_ifs <;> exact ⟨by first | exact strip_strip _ | assumption,
    by first | exact strip_strip _ | assumption,
    by first | exact strip_strip _ | assumption,
    by first | exact strip_strip _ | assumption⟩

theorem pairLoop_stripped : ∀ (l : List Str) (secs : Sections), StrippedSecs secs →
    StrippedSecs (pairLoop secs l)
  | [], _, h => h
  | [_], _, h => h
  | a :: b :: rest, secs, h =>
    pairLoop_stripped rest (sectionUpdate secs a b) (sectionUpdate_stripped secs h a b)

theorem parse_sections_stripped (full : Str) : StrippedSecs (parse_sections full) := by
  unfold parse_sections
  cases splitHeaders full with
  | nil => exact ⟨rfl, rfl, rfl, rfl⟩
  | cons a rest => exact pairLoop_stripped rest _ ⟨rfl, rfl, rfl, rfl⟩

theorem getSection_stripped (full : Str) (name : String) :
    strip (getSection (parse_sections full) name) = getSection (parse_sections full) name := by
  obtain ⟨h1, h2, h3, h4⟩ := parse_sections_stripped full
  unfold getSection
  split_ifs <;> first | assumption | rfl

theorem chunks50_cons {s : Str} (h : s ≠ []) :
    chunks50 s = s.take 50 :: chunks50 (s.drop 50) := by
  have hpos : 1 ≤ s.length := List.length_pos.mpr h
  have hcnt : (s.length + 49) / 50 = ((s.drop 50).length + 49) / 50 + 1 := by
    rw [List.length_drop]
    omega
  rw [chunks50, hcnt, List.range_succ_eq_map, List.map_cons, List.map_map, chunks50]
  have hhead : (List.drop (50 * 0) s).take 50 = s.take 50 := by simp
  have htail := List.map_congr_left
    (l := List.range (((s.drop 50).length + 49) / 50))
    (f := (fun k => (List.drop (50 * k) s).take 50) ∘ Nat.succ)
    (g := fun k => (List.drop (50 * k) (s.drop 50)).take 50)
    (fun a _ => by
      simp only [Function.comp_apply, List.drop_drop]
      rw [show 50 * (a + 1) = 50 + 50 * a by omega])
  rw [htail]
  simp

theorem chunks50_flatten_bounded :
    ∀ (n : Nat) (s : Str), s.length ≤ n → (chunks50 s).flatten = s := by
  intro n
  induction n with
  | zero =>
    intro s hs
    have : s = [] := List.eq_nil_of_length_eq_zero (Nat.le_zero.mp hs)
    subst this
    rfl
  | succ n ih =>
    intro s hs
    by_cases h0 : s = []
    · subst h0; rfl
    · rw [chunks50_cons h0, List.flatten_cons,
        ih (s.drop 50) (by rw [List.length_drop]; omega)]
      exact List.take_append_drop 50 s

theorem chunks50_flatten (s : Str) : (chunks50 s).flatten = s :=
  chunks50_flatten_bounded s.length s Nat.le.refl

theorem chunks50_get (s : Str) (i : Nat) (hi : i < (chunks50 s).length) :
    (chunks50 s).get ⟨i, hi⟩ = (s.drop (50 * i)).take 50 := by
  simp [chunks50]

theorem mem_chunks50 {ch s : Str} (h : ch ∈ chunks50 s) :
    ch.length ≤ 50 ∧ ch <:+: s := by
  simp only [chunks50, List.mem_map, List.mem_range] at h
  obtain ⟨k, -, rfl⟩ := h
  constructor
  · rw [List.length_take]
    omega
  · exact (List.take_prefix 50 _).isInfix.trans (List.drop_suffix _ _).isInfix

/-- C3 counterexample: on the empty model reply the security section's parsed
text is empty, yet the stream emits a `content` frame whose content (the
fixed fallback sentence) is not a substring of that parsed text. -/
theorem C3_counterexample :
    contentFrame "security" noIssues ∈ generate_review_stream (.ok ([] : Str)) ∧
    ¬ noIssues <:+: getSection (parse_sections ([] : Str)) "security" := by
  decide

/-- C3 (amended): every `content` frame of a successful stream carries at most
50 code points, and its content is either a substring of the parsed text of
its named section or — exactly when that parsed text is empty — the fixed
fallback string. -/
theorem C3_content_frames (full : Str) (f : Frame)
    (hf : f ∈ generate_review_stream (.ok full)) (ht : f.ftype = "content") :
    ∃ name txt, f.sect = some name ∧ name ∈ sectionOrder ∧ f.content = some txt ∧
      txt.length ≤ 50 ∧
      (txt <:+: getSection (parse_sections full) name ∨
        (txt = noIssues ∧ getSection (parse_sections full) name = [])) := by
  simp only [generate_review_stream, List.mem_append, List.mem_flatMap,
    List.mem_singleton] at hf
  rcases hf with ⟨name, hname, hf⟩ | rfl
  · rw [sectionFrames] at hf
    rcases List.mem_cons.mp hf with rfl | hf
    · simp [startFrame] at ht
    · rcases List.mem_append.mp hf with hf | hf
      · rw [contentBlock] at hf
        split at hf
        · next hcne =>
          obtain ⟨ch, hch, rfl⟩ := List.mem_map.mp hf
          obtain ⟨hlen, hinf⟩ := mem_chunks50 hch
          exact ⟨name, ch, rfl, hname, rfl, hlen,
            Or.inl (hinf.trans (strip_infix_self _))⟩
        · next hce =>
          rw [List.mem_singleton] at hf
          subst hf
          have hempty : strip (getSection (parse_sections full) name) = [] := by
            by_contra hne
            exact hce hne
          refine ⟨name, noIssues, rfl, hname, rfl, by decide, Or.inr ⟨rfl, ?_⟩⟩
          rw [← getSection_stripped full name, hempty]
      · rw [List.mem_singleton] at hf
        subst hf
        simp [doneFrame] at ht
  · simp [completeFrame] at ht

theorem C3_content_frames_witness :
    contentFrame "security" (ofString "abc") ∈
      generate_review_stream (.ok (ofString "## SECURITY ANALYSIS\nabc")) ∧
    ∃ name txt,
      (contentFrame "security" (ofString "abc")).sect = some name ∧ name ∈ sectionOrder ∧
      (contentFrame "security" (ofString "abc")).content = some txt ∧ txt.length ≤ 50 ∧
      (txt <:+: getSection (parse_sections (ofString "## SECURITY ANALYSIS\nabc")) name ∨
        (txt = noIssues ∧
          getSection (parse_sections (ofString "## SECURITY ANALYSIS\nabc")) name = [])) :=
  ⟨by decide, C3_content_frames (ofString "## SECURITY ANALYSIS\nabc")
    (contentFrame "security" (ofString "abc")) (by decide) rfl⟩

theorem contentsOf_append (a b : List Frame) (n : String) :
    contentsOf (a ++ b) n = contentsOf a n ++ contentsOf b n := by
  rw [contentsOf, List.filterMap_append]
  rfl

theorem contentsOf_sectionFrames_ne (secs : Sections) (n₁ n₂ : String) (h : n₁ ≠ n₂) :
    contentsOf (sectionFrames secs n₁) n₂ = [] := by
  rw [contentsOf, List.filterMap_eq_nil_iff]
  intro f hf
  rw [sectionFrames] at hf
  rcases List.mem_cons.mp hf with rfl | hf
  · simp [startFrame]
  · rcases List.mem_append.mp hf with hf | hf
    · obtain ⟨hft, hsect⟩ := contentBlock_mem secs n₁ f hf
      simp [hft, hsect, h]
    · rw [List.mem_singleton] at hf
      subst hf
      simp [doneFrame]

theorem contentsOf_sectionFrames_self (secs : Sections) (n : String) :
    contentsOf (sectionFrames secs n) n =
      if strip (getSection secs n) ≠ [] then chunks50 (strip (getSection secs n))
      else [noIssues] := by
  rw [sectionFrames, contentBlock]
  split
  · simp [contentsOf, startFrame, doneFrame, contentFrame, List.filterMap_map,
      Function.comp_def]
  · simp [contentsOf, startFrame, doneFrame, contentFrame]

theorem contentsOf_stream_eq (full : Str) (name : String) (hn : name ∈ sectionOrder) :
    contentsOf (generate_review_stream (.ok full)) name =
      contentsOf (sectionFrames (parse_sections full) name) name := by
  have hc : contentsOf [completeFrame] name = [] := by simp [contentsOf, completeFrame]
  simp only [generate_review_stream, sectionOrder, List.flatMap_cons, List.flatMap_nil,
    List.append_nil]
  rw [contentsOf_append, hc, List.append_nil]
  simp only [sectionOrder, List.mem_cons, List.not_mem_nil, or_false] at hn
  rcases hn with rfl | rfl | rfl | rfl
  · rw [contentsOf_append, contentsOf_append, contentsOf_append,
      contentsOf_sectionFrames_ne _ "performance" _ (by decide),
      contentsOf_sectionFrames_ne _ "readability" _ (by decide),
      contentsOf_sectionFrames_ne _ "summary" _ (by decide)]
    simp
  · rw [contentsOf_append, contentsOf_append, contentsOf_append,
      contentsOf_sectionFrames_ne _ "security" _ (by decide),
      contentsOf_sectionFrames_ne _ "readability" _ (by decide),
      contentsOf_sectionFrames_ne _ "summary" _ (by decide)]
    simp
  · rw [contentsOf_append, contentsOf_append, contentsOf_append,
      contentsOf_sectionFrames_ne _ "security" _ (by decide),
      contentsOf_sectionFrames_ne _ "performance" _ (by decide),
      contentsOf_sectionFrames_ne _ "summary" _ (by decide)]
    simp
  · rw [contentsOf_append, contentsOf_append, contentsOf_append,
      contentsOf_sectionFrames_ne _ "security" _ (by decide),
      contentsOf_sectionFrames_ne _ "performance" _ (by decide),
      contentsOf_sectionFrames_ne _ "readability" _ (by decide)]
    simp

/-- C6: for a section with non-empty parsed text, the content payloads of its
`content` frames are exactly the 50-stride chunks of the stripped section
text: concatenated they give back the stripped text, and the i-th frame
carries characters 50·i up to 50·i+50. -/
theorem C6_chunked_reassembly (full : Str) (name : String) (hn : name ∈ sectionOrder)
    (hne : getSection (parse_sections full) name ≠ []) :
    contentsOf (generate_review_stream (.ok full)) name =
      chunks50 (strip (getSection (parse_sections full) name)) ∧
    (contentsOf (generate_review_stream (.ok full)) name).flatten =
      strip (getSection (parse_sections full) name) ∧
    ∀ i (hi : i < (contentsOf (generate_review_stream (.ok full)) name).length),
      (contentsOf (generate_review_stream (.ok full)) name).get ⟨i, hi⟩ =
        ((strip (getSection (parse_sections full) name)).drop (50 * i)).take 50 := by
  have hstrip : strip (getSection (parse_sections full) name) =
      getSection (parse_sections full) name := getSection_stripped full name
  have hne' : strip (getSection (parse_sections full) name) ≠ [] := by
    rw [hstrip]; exact hne
  have h1 : contentsOf (generate_review_stream (.ok full)) name =
      chunks50 (strip (getSection (parse_sections full) name)) := by
    rw [contentsOf_stream_eq full name hn, contentsOf_sectionFrames_self, if_pos hne']
  refine ⟨h1, ?_, ?_⟩
  · rw [h1, chunks50_flatten]
  · intro i
    rw [h1]
    intro hi
    exact chunks50_get _ i hi

theorem C6_chunked_reassembly_witness :
    "security" ∈ sectionOrder ∧
    getSection (parse_sections (ofString "## SECURITY ANALYSIS\nhello")) "security" ≠ [] ∧
    contentsOf (generate_review_stream (.ok (ofString "## SECURITY ANALYSIS\nhello")))
        "security" =
      chunks50 (strip
        (getSection (parse_sections (ofString "## SECURITY ANALYSIS\nhello")) "security")) :=
  ⟨by decide, by decide,
    (C6_chunked_reassembly (ofString "## SECURITY ANALYSIS\nhello") "security"
      (by decide) (by decide)).1⟩

/-- C8: when a section's parsed text is empty the stream still emits, between
that section's `section_start` and `section_complete` frames, exactly one
`content` frame, and its content is the fixed fallback sentence rather than
text from the model reply. -/
theorem C8_empty_section_fallback (full : Str) (name : String) (hn : name ∈ sectionOrder)
    (he : getSection (parse_sections full) name = []) :
    (∃ pre post, generate_review_stream (.ok full) =
      pre ++ startFrame name :: contentFrame name noIssues :: doneFrame name :: post) ∧
    contentsOf (generate_review_stream (.ok full)) name = [noIssues] := by
  have hstrip : strip (getSection (parse_sections full) name) = [] := by
    rw [he]; rfl
  have hblock : sectionFrames (parse_sections full) name =
      [startFrame name, contentFrame name noIssues, doneFrame name] := by
    rw [sectionFrames, contentBlock, hstrip]
    simp
  constructor
  · simp only [sectionOrder, List.mem_cons, List.not_mem_nil, or_false] at hn
    rcases hn with rfl | rfl | rfl | rfl
    · refine ⟨[], sectionFrames (parse_sections full) "performance"
          ++ (sectionFrames (parse_sections full) "readability"
          ++ (sectionFrames (parse_sections full) "summary" ++ [completeFrame])), ?_⟩
      simp only [generate_review_stream, sectionOrder, List.flatMap_cons, List.flatMap_nil,
        List.append_nil, hblock]
      simp [List.append_assoc]
    · refine ⟨sectionFrames (parse_sections full) "security",
        sectionFrames (parse_sections full) "readability"
          ++ (sectionFrames (parse_sections full) "summary" ++ [completeFrame]), ?_⟩
      simp only [generate_review_stream, sectionOrder, List.flatMap_cons, List.flatMap_nil,
        List.append_nil, hblock]
      simp [List.append_assoc]
    · refine ⟨sectionFrames (parse_sections full) "security"
          ++ sectionFrames (parse_sections full) "performance",
        sectionFrames (parse_sections full) "summary" ++ [completeFrame], ?_⟩
      simp only [generate_review_stream, sectionOrder, List.flatMap_cons, List.flatMap_nil,
        List.append_nil, hblock]
      simp [List.append_assoc]
    · refine ⟨sectionFrames (parse_sections full) "security"
          ++ sectionFrames (parse_sections full) "performance"
          ++ sectionFrames (parse_sections full) "readability",
        [completeFrame], ?_⟩
      simp only [generate_review_stream, sectionOrder, List.flatMap_cons, List.flatMap_nil,
        List.append_nil, hblock]
      simp [List.append_assoc]
  · rw [contentsOf_stream_eq full name hn, contentsOf_sectionFrames_self,
      if_neg (by simp [hstrip])]

theorem C8_empty_section_fallback_witness :
    contentsOf (generate_review_stream (.ok ([] : Str))) "security" = [noIssues] :=
  (C8_empty_section_fallback [] "security" (by decide) (by decide)).2

theorem splitLines_eq (s : Str) : splitLines s = s.takeWhile notNewline :: lineTail s := by
  induction s with
  | nil => rfl
  | cons c rest ih =>
    by_cases hc : c = 10
    · subst hc
      simp [splitLines, ih, lineTail, List.takeWhile_cons, List.dropWhile_cons, notNewline]
    · simp [splitLines, ih, lineTail, List.takeWhile_cons, List.dropWhile_cons, notNewline, hc]

theorem splitLines_ne_nil (s : Str) : splitLines s ≠ [] := by
  rw [splitLines_eq]
  exact List.cons_ne_nil _ _

theorem prefix_takeWhile_iff : ∀ (t s : Str), (10 : Nat) ∉ t →
    (t <+: s ↔ t <+: s.takeWhile notNewline) := by
  intro t
  induction t with
  | nil => intro s _; simp
  | cons a t' ih =>
    intro s ht
    have ha : a ≠ 10 := fun h => ht (h ▸ List.mem_cons_self a t')
    have ht' : (10 : Nat) ∉ t' := fun h => ht (List.mem_cons_of_mem a h)
    cases s with
    | nil => simp
    | cons c rest =>
      rw [List.takeWhile_cons]
      by_cases hc : notNewline c
      · rw [if_pos hc, List.cons_prefix_cons, List.cons_prefix_cons, ih rest ht']
      · rw [if_neg hc]
        constructor
        · intro h
          obtain ⟨rfl, -⟩ := List.cons_prefix_cons.mp h
          exact absurd (show a = 10 by simpa [notNewline] using hc) ha
        · intro h
          exact absurd (List.prefix_nil.mp h) (List.cons_ne_nil _ _)

theorem infix_splitLines_iff : ∀ (s t : Str), (10 : Nat) ∉ t →
    (t <:+: s ↔ ∃ l ∈ splitLines s, t <:+: l) := by
  intro s
  induction s with
  | nil =>
    intro t ht
    simp [splitLines]
  | cons c rest ih =>
    intro t ht
    rw [List.infix_cons_iff]
    by_cases hc : c = 10
    · subst hc
      have hsplit : splitLines (10 :: rest) = [] :: splitLines rest := by
        rw [splitLines_eq (10 :: rest), lineTail]
        simp [List.takeWhile_cons, List.dropWhile_cons, notNewline]
      rw [hsplit]
      constructor
      · rintro (hpre | hinf)
        · have hnil : t = [] := by
            cases t with
            | nil => rfl
            | cons a t' =>
              obtain ⟨rfl, -⟩ := List.cons_prefix_cons.mp hpre
              exact absurd (List.mem_cons_self _ _) ht
          subst hnil
          exact ⟨[], List.mem_cons_self _ _, ⟨[], [], rfl⟩⟩
        · obtain ⟨l, hl, hi⟩ := (ih t ht).mp hinf
          exact ⟨l, List.mem_cons_of_mem _ hl, hi⟩
      · rintro ⟨l, hl, hi⟩
        rcases List.mem_cons.mp hl with rfl | hl
        · left
          rw [List.infix_nil.mp hi]
          exact ⟨_, rfl⟩
        · right
          exact (ih t ht).mpr ⟨l, hl, hi⟩
    · have hcnn : notNewline c := by simp [notNewline, hc]
      have hsplit : splitLines (c :: rest) =
          (c :: rest.takeWhile notNewline) :: lineTail rest := by
        rw [splitLines_eq (c :: rest), List.takeWhile_cons, if_pos hcnn]
        congr 1
        rw [lineTail, lineTail, List.dropWhile_cons, if_pos hcnn]
      rw [hsplit, ih t ht, splitLines_eq rest]
      constructor
      · rintro (hpre | hex)
        · have hp : t <+: (c :: rest).takeWhile notNewline :=
            (prefix_takeWhile_iff t (c :: rest) ht).mp hpre
          rw [List.takeWhile_cons, if_pos hcnn] at hp
          exact ⟨c :: rest.takeWhile notNewline, List.mem_cons_self _ _, hp.isInfix⟩
        · obtain ⟨l, hl, hi⟩ := hex
          rcases List.mem_cons.mp hl with rfl | hl
          · refine ⟨c :: rest.takeWhile notNewline, List.mem_cons_self _ _, ?_⟩
            exact hi.trans (List.suffix_cons c _).isInfix
          · exact ⟨l, List.mem_cons_of_mem _ hl, hi⟩
      · rintro ⟨l, hl, hi⟩
        rcases List.mem_cons.mp hl with rfl | hl
        · rcases List.infix_cons_iff.mp hi with hpre | hinf
          · left
            apply (prefix_takeWhile_iff t (c :: rest) ht).mpr
            rw [List.takeWhile_cons, if_pos hcnn]
            exact hpre
          · right
            exact ⟨rest.takeWhile notNewline, List.mem_cons_self _ _, hinf⟩
        · right
          exact ⟨l, List.mem_cons_of_mem _ hl, hi⟩

theorem countGo_skip (t : Str) : ∀ (s : Str) (k : Nat), countGo t s k = countGo t (s.drop k) 0 := by
  intro s
  induction s with
  | nil => intro k; simp [countGo]
  | cons c rest ih =>
    intro k
    cases k with
    | zero => rfl
    | succ m =>
      rw [show countGo t (c :: rest) (m + 1) = countGo t rest m from rfl, ih m,
        List.drop_succ_cons]

theorem countOcc_nil {t : Str} (ht : t ≠ []) : countOcc t [] = 0 := by
  rw [countOcc, if_neg ht]
  rfl

theorem countOcc_cons_pos {t : Str} (ht : t ≠ []) {c : Nat} {rest : Str}
    (hp : t <+: c :: rest) :
    countOcc t (c :: rest) = 1 + countOcc t ((c :: rest).drop t.length) := by
  cases t with
  | nil => exact absurd rfl ht
  | cons a t' =>
    rw [countOcc, if_neg ht, countOcc, if_neg ht]
    rw [show countGo (a :: t') (c :: rest) 0 =
      if (a :: t').isPrefixOf (c :: rest) then
        1 + countGo (a :: t') rest ((a :: t').length - 1)
      else countGo (a :: t') rest 0 from rfl]
    rw [if_pos (List.isPrefixOf_iff_prefix.mpr hp), countGo_skip]
    simp [List.drop_succ_cons]

theorem countOcc_cons_neg {t : Str} (ht : t ≠ []) {c : Nat} {rest : Str}
    (hp : ¬ t <+: c :: rest) :
    countOcc t (c :: rest) = countOcc t rest := by
  rw [countOcc, if_neg ht, countOcc, if_neg ht]
  rw [show countGo t (c :: rest) 0 =
    if t.isPrefixOf (c :: rest) then 1 + countGo t rest (t.length - 1)
    else countGo t rest 0 from rfl]
  rw [if_neg (fun h => hp (List.isPrefixOf_iff_prefix.mp h))]

theorem splitLines_drop : ∀ (k : Nat) (s : Str), k ≤ (s.takeWhile notNewline).length →
    splitLines (s.drop k) = (s.takeWhile notNewline).drop k :: lineTail s := by
  intro k
  induction k with
  | zero =>
    intro s _
    simpa using splitLines_eq s
  | succ m ih =>
    intro s hk
    cases s with
    | nil => simp at hk
    | cons c rest =>
      by_cases hc : notNewline c
      · rw [List.takeWhile_cons, if_pos hc] at hk ⊢
        rw [List.drop_succ_cons, List.drop_succ_cons, ih rest (by simpa using hk)]
        congr 1
        rw [lineTail, lineTail, List.dropWhile_cons, if_pos hc]
      · rw [List.takeWhile_cons, if_neg hc] at hk
        simp at hk

theorem splitLines_cons_nl (rest : Str) : splitLines (10 :: rest) = [] :: splitLines rest := by
  rw [splitLines_eq (10 :: rest), lineTail]
  simp [List.takeWhile_cons, List.dropWhile_cons, notNewline]

theorem splitLines_cons_not_nl {c : Nat} (hc : notNewline c) (rest : Str) :
    splitLines (c :: rest) = (c :: rest.takeWhile notNewline) :: lineTail rest := by
  rw [splitLines_eq (c :: rest), List.takeWhile_cons, if_pos hc]
  congr 1
  rw [lineTail, lineTail, List.dropWhile_cons, if_pos hc]

theorem countOcc_splitLines {t : Str} (ht : t ≠ []) (h10 : (10 : Nat) ∉ t) :
    ∀ (n : Nat) (s : Str), s.length ≤ n →
      countOcc t s = ((splitLines s).map (countOcc t)).sum := by
  intro n
  induction n with
  | zero =>
    intro s hs
    have hnil : s = [] := List.eq_nil_of_length_eq_zero (Nat.le_zero.mp hs)
    subst hnil
    simp [splitLines, countOcc_nil ht]
  | succ n ih =>
    intro s hs
    cases s with
    | nil => simp [splitLines, countOcc_nil ht]
    | cons c rest =>
      rw [List.length_cons] at hs
      by_cases hpre : t <+: c :: rest
      · obtain ⟨a, t', rfl⟩ : ∃ a t', t = a :: t' := by
          cases t with
          | nil => exact absurd rfl ht
          | cons x xs => exact ⟨x, xs, rfl⟩
        obtain ⟨rfl, hpre'⟩ := List.cons_prefix_cons.mp hpre
        have ha10 : a ≠ 10 := fun h => h10 (h ▸ List.mem_cons_self a t')
        have h10' : (10 : Nat) ∉ t' := fun h => h10 (List.mem_cons_of_mem a h)
        have hcnn : notNewline a := by simp [notNewline, ha10]
        have htw : t' <+: rest.takeWhile notNewline :=
          (prefix_takeWhile_iff t' rest h10').mp hpre'
        have hlen : t'.length ≤ (rest.takeWhile notNewline).length := htw.length_le
        have hlhs : countOcc (a :: t') (a :: rest) =
            1 + countOcc (a :: t') (rest.drop t'.length) := by
          rw [countOcc_cons_pos ht hpre]
          simp [List.length_cons, List.drop_succ_cons]
        have hih : countOcc (a :: t') (rest.drop t'.length) =
            ((splitLines (rest.drop t'.length)).map (countOcc (a :: t'))).sum :=
          ih _ (by rw [List.length_drop]; omega)
        have hdrop := splitLines_drop t'.length rest hlen
        have hrhs1 : countOcc (a :: t') (a :: rest.takeWhile notNewline) =
            1 + countOcc (a :: t') ((rest.takeWhile notNewline).drop t'.length) := by
          rw [countOcc_cons_pos ht (List.cons_prefix_cons.mpr ⟨rfl, htw⟩)]
          simp [List.length_cons, List.drop_succ_cons]
        rw [splitLines_cons_not_nl hcnn rest, List.map_cons, List.sum_cons, hrhs1,
          hlhs, hih, hdrop, List.map_cons, List.sum_cons]
        omega
      · rw [countOcc_cons_neg ht hpre, ih rest (by omega)]
        by_cases hc : c = 10
        · subst hc
          rw [splitLines_cons_nl]
          simp [countOcc_nil ht]
        · have hcnn : notNewline c := by simp [notNewline, hc]
          rw [splitLines_cons_not_nl hcnn rest, splitLines_eq rest]
          simp only [List.map_cons, List.sum_cons]
          have hnc : ¬ (t <+: c :: rest.takeWhile notNewline) := by
            intro hcon
            apply hpre
            apply (prefix_takeWhile_iff t (c :: rest) h10).mpr
            rw [List.takeWhile_cons, if_pos hcnn]
            exact hcon
          rw [countOcc_cons_neg ht hnc]

theorem countOcc_lines (t s : Str) (ht : t ≠ []) (h10 : (10 : Nat) ∉ t) :
    countOcc t s = ((splitLines s).map (countOcc t)).sum :=
  countOcc_splitLines ht h10 s.length s Nat.le.refl

theorem lowerChar_eq_ten_iff (c : Nat) : lowerChar c = 10 ↔ c = 10 := by
  unfold lowerChar
  split_ifs with h <;> omega

theorem splitLines_toLower (s : Str) : splitLines (toLower s) = (splitLines s).map toLower := by
  induction s with
  | nil => rfl
  | cons c rest ih =>
    rw [show toLower (c :: rest) = lowerChar c :: toLower rest from rfl]
    by_cases hc : c = 10
    · subst hc
      rw [show lowerChar 10 = 10 from rfl, splitLines_cons_nl, splitLines_cons_nl, ih,
        List.map_cons]
      rfl
    · have hl10 : lowerChar c ≠ 10 := fun h => hc ((lowerChar_eq_ten_iff c).mp h)
      have hcnn : notNewline c := by simp [notNewline, hc]
      have hlnn : notNewline (lowerChar c) := by simp [notNewline, hl10]
      rw [splitLines_cons_not_nl hlnn, splitLines_cons_not_nl hcnn, List.map_cons]
      have hfun : (notNewline ∘ lowerChar) = notNewline := by
        funext x
        by_cases hx : x = 10
        · subst hx; rfl
        · have hlx : lowerChar x ≠ 10 := fun h => hx ((lowerChar_eq_ten_iff x).mp h)
          simp [notNewline, hlx, hx]
      have htw : (toLower rest).takeWhile notNewline =
          toLower (rest.takeWhile notNewline) := by
        rw [toLower, toLower, List.takeWhile_map, hfun]
      have hlt : lineTail (toLower rest) = (lineTail rest).map toLower := by
        have h1 := splitLines_eq (toLower rest)
        have h2 := splitLines_eq rest
        rw [ih, h2, List.map_cons] at h1
        exact (((List.cons.injEq _ _ _ _).mp h1).2).symm
      rw [htw, hlt]
      rfl

theorem splitLines_toLower_perm {a b : Str} (h : List.Perm (splitLines a) (splitLines b)) :
    List.Perm (splitLines (toLower a)) (splitLines (toLower b)) := by
  rw [splitLines_toLower, splitLines_toLower]
  exact h.map toLower

theorem inStr_perm {a b : Str} (h : List.Perm (splitLines a) (splitLines b)) {t : Str}
    (ht : (10 : Nat) ∉ t) : inStr t a = inStr t b := by
  have hiff : (inStr t a = true) ↔ (inStr t b = true) := by
    rw [inStr_iff, inStr_iff, infix_splitLines_iff a t ht, infix_splitLines_iff b t ht]
    constructor
    · rintro ⟨l, hl, hi⟩
      exact ⟨l, h.mem_iff.mp hl, hi⟩
    · rintro ⟨l, hl, hi⟩
      exact ⟨l, h.mem_iff.mpr hl, hi⟩
  cases hA : inStr t a <;> cases hB : inStr t b <;> simp_all

theorem countOcc_perm {a b : Str} (h : List.Perm (splitLines a) (splitLines b)) {t : Str}
    (ht : t ≠ []) (h10 : (10 : Nat) ∉ t) : countOcc t a = countOcc t b := by
  rw [countOcc_lines t a ht h10, countOcc_lines t b ht h10]
  exact (h.map (countOcc t)).sum_eq

theorem filter_length_perm {a b : Str} (h : List.Perm (splitLines a) (splitLines b))
    (p : Str → Bool) :
    ((splitLines a).filter p).length = ((splitLines b).filter p).length :=
  (h.filter p).length_eq

theorem analyze_perm {a b : Str} (h : List.Perm (splitLines a) (splitLines b)) (pt : String) :
    analyze_security_patterns a pt = analyze_security_patterns b pt := by
  have hlow := splitLines_toLower_perm h
  have hfilt : ∀ (L : List Str), (∀ ind ∈ L, (10 : Nat) ∉ toLower ind) →
      L.filter (fun ind => inStr (toLower ind) (toLower a)) =
        L.filter (fun ind => inStr (toLower ind) (toLower b)) := by
    intro L hL
    apply List.filter_congr
    intro ind hind
    exact inStr_perm hlow (hL ind hind)
  unfold analyze_security_patterns patternInfo
  split_ifs <;> try rfl
  all_goals dsimp only
  all_goals rw [hfilt _ (by decide)]

theorem assess_perm {a b : Str} (h : List.Perm (splitLines a) (splitLines b)) :
    assess_code_quality_metrics a = assess_code_quality_metrics b := by
  have hlow := splitLines_toLower_perm h
  have h1 := filter_length_perm h (fun l => !(strip l).isEmpty)
  have h2 := filter_length_perm h (fun l =>
    (ofString "#").isPrefixOf (strip l) || (ofString "//").isPrefixOf (strip l))
  have h3 := filter_length_perm h (fun l => l.length > 100)
  have hc1 : countOcc (ofString "def ") (toLower a) = countOcc (ofString "def ") (toLower b) :=
    countOcc_perm hlow (by decide) (by decide)
  have hc2 : countOcc (ofString "function ") (toLower a) =
      countOcc (ofString "function ") (toLower b) :=
    countOcc_perm hlow (by decide) (by decide)
  have hc3 : countOcc (ofString "const ") (toLower a) =
      countOcc (ofString "const ") (toLower b) :=
    countOcc_perm hlow (by decide) (by decide)
  have hc4 : countOcc (ofString "let ") (toLower a) = countOcc (ofString "let ") (toLower b) :=
    countOcc_perm hlow (by decide) (by decide)
  have hc5 : countOcc (ofString "var ") (toLower a) = countOcc (ofString "var ") (toLower b) :=
    countOcc_perm hlow (by decide) (by decide)
  have he1 : inStr (ofString "try") (toLower a) = inStr (ofString "try") (toLower b) :=
    inStr_perm hlow (by decide)
  have he2 : inStr (ofString "catch") (toLower a) = inStr (ofString "catch") (toLower b) :=
    inStr_perm hlow (by decide)
  have he3 : inStr (ofString "except") (toLower a) = inStr (ofString "except") (toLower b) :=
    inStr_perm hlow (by decide)
  have hd1 : inStr (ofString "\"\"\"") a = inStr (ofString "\"\"\"") b :=
    inStr_perm h (by decide)
  have hd2 : inStr (ofString "///") a = inStr (ofString "///") b :=
    inStr_perm h (by decide)
  have hd3 : inStr (ofString "/**") a = inStr (ofString "/**") b :=
    inStr_perm h (by decide)
  have hnm : namingTokens.any (fun t => inStr t a) = namingTokens.any (fun t => inStr t b) := by
    simp only [namingTokens, List.any_cons, List.any_nil]
    rw [inStr_perm h (by decide : (10 : Nat) ∉ ofString "a="),
      inStr_perm h (by decide : (10 : Nat) ∉ ofString "b="),
      inStr_perm h (by decide : (10 : Nat) ∉ ofString "x="),
      inStr_perm h (by decide : (10 : Nat) ∉ ofString "y="),
      inStr_perm h (by decide : (10 : Nat) ∉ ofString "temp="),
      inStr_perm h (by decide : (10 : Nat) ∉ ofString "tmp=")]
  simp only [assess_code_quality_metrics]
  rw [h1, h2, h3, hc1, hc2, hc3, hc4, hc5, he1, he2, he3, hd1, hd2, hd3, hnm]

/-- C4 counterexample: reordering the lines of `"for a\n}\nfor b"` into
`"for a\nfor b\n}"` changes the result of `calculate_complexity_metrics`
(`nested_loops` 0 vs 1, `max_nesting_level` 1 vs 2), so the complexity scorer
is not a function of flat occurrence counts alone. -/
theorem C4_counterexample :
    List.Perm (splitLines (ofString "for a\n\x7d\nfor b"))
      (splitLines (ofString "for a\nfor b\n\x7d")) ∧
    calculate_complexity_metrics (ofString "for a\n\x7d\nfor b") ≠
      calculate_complexity_metrics (ofString "for a\nfor b\n\x7d") := by
  decide

/-- C4 (amended): `analyze_security_patterns` and `assess_code_quality_metrics`
are computed from flat keyword/substring occurrence tests and counts and are
invariant under any reordering of the input's lines; `calculate_complexity_metrics`
is not (its nesting tracker reads the lines in order), as the counterexample
shows. -/
theorem C4_line_reorder_invariance :
    (∀ (a b : Str) (pt : String), List.Perm (splitLines a) (splitLines b) →
      analyze_security_patterns a pt = analyze_security_patterns b pt) ∧
    (∀ a b : Str, List.Perm (splitLines a) (splitLines b) →
      assess_code_quality_metrics a = assess_code_quality_metrics b) :=
  ⟨fun _ _ pt h => analyze_perm h pt, fun _ _ h => assess_perm h⟩

theorem C4_line_reorder_invariance_witness :
    List.Perm (splitLines (ofString "a\nb")) (splitLines (ofString "b\na")) ∧
    analyze_security_patterns (ofString "a\nb") "auth" =
      analyze_security_patterns (ofString "b\na") "auth" :=
  ⟨by decide, C4_line_reorder_invariance.1 _ _ "auth" (by decide)⟩

theorem isSpace_iff (c : Nat) :
    isSpace c = true ↔ c = 32 ∨ c = 9 ∨ c = 10 ∨ c = 13 ∨ c = 11 ∨ c = 12 := by
  simp [isSpace]
  tauto

theorem isSpace_lowerChar (c : Nat) : isSpace (lowerChar c) = isSpace c := by
  by_cases h : 65 ≤ c ∧ c ≤ 90
  · have h1 : lowerChar c = c + 32 := by simp [lowerChar, h]
    rw [h1]
    have e1 : isSpace (c + 32) = false := by
      cases hsp : isSpace (c + 32) with
      | false => rfl
      | true => rcases (isSpace_iff _).mp hsp with h' | h' | h' | h' | h' | h' <;> omega
    have e2 : isSpace c = false := by
      cases hsp : isSpace c with
      | false => rfl
      | true => rcases (isSpace_iff _).mp hsp with h' | h' | h' | h' | h' | h' <;> omega
    rw [e1, e2]
  · simp [lowerChar, h]

theorem head?_of_prefix {q z : Str} (hq : q ≠ []) (h : q <+: z) : z.head? = q.head? := by
  obtain ⟨t, rfl⟩ := h
  cases q with
  | nil => exact absurd rfl hq
  | cons a q' => rfl

theorem isPrefixOf_append_false {q w : Str} (X : Str) (hq : q ≠ []) (hw : w ≠ [])
    (hne : q.head? ≠ w.head?) : q.isPrefixOf (w ++ X) = false := by
  cases hqp : q.isPrefixOf (w ++ X) with
  | false => rfl
  | true =>
    exfalso
    have hpre := List.isPrefixOf_iff_prefix.mp hqp
    have h1 : (w ++ X).head? = q.head? := head?_of_prefix hq hpre
    have h2 : (w ++ X).head? = w.head? := by
      cases w with
      | nil => exact absurd rfl hw
      | cons b w' => rfl
    exact hne (by rw [← h1, h2])

theorem matchHeaderAt_some {s cap after : Str}
    (h : matchHeaderAt s = some (cap, after)) : after <:+ s ∧ after.length < s.length := by
  cases s with
  | nil => simp [matchHeaderAt] at h
  | cons c1 s1 =>
    cases s1 with
    | nil => simp [matchHeaderAt] at h
    | cons c2 rest =>
      simp only [matchHeaderAt] at h
      split_ifs at h with h35 hemp
      cases hf : phrases.find? (fun p =>
            (toLower p).isPrefixOf (toLower (rest.dropWhile isSpace))) with
        | none => rw [hf] at h; exact absurd h (by simp)
        | some p =>
          rw [hf] at h
          simp only [Option.some.injEq, Prod.mk.injEq] at h
          obtain ⟨-, hafter⟩ := h
          subst hafter
          constructor
          · have h1 : (rest.dropWhile isSpace).drop p.length <:+ rest.dropWhile isSpace :=
              List.drop_suffix _ _
            have h2 : rest.dropWhile isSpace <:+ rest := List.dropWhile_suffix _
            have h3 : rest <:+ c2 :: rest := List.suffix_cons _ _
            have h4 : c2 :: rest <:+ c1 :: c2 :: rest := List.suffix_cons _ _
            exact h1.trans (h2.trans (h3.trans h4))
          · have h5 : (rest.dropWhile isSpace).length ≤ rest.length :=
              (List.dropWhile_suffix (p := isSpace) (l := rest)).length_le
            rw [List.length_drop, List.length_cons, List.length_cons]
            omega

theorem scanGo_skip2 : ∀ (s acc : Str) (k : Nat), scanGo acc k s = scanGo acc 0 (s.drop k) := by
  intro s
  induction s with
  | nil =>
    intro acc k
    cases k <;> rfl
  | cons c rest ih =>
    intro acc k
    cases k with
    | zero => rfl
    | succ m =>
      rw [show scanGo acc (m + 1) (c :: rest) = scanGo acc m rest from rfl, ih,
        List.drop_succ_cons]

theorem scanGo_cons_none {c : Nat} {rest : Str} (h : matchHeaderAt (c :: rest) = none)
    (acc : Str) : scanGo acc 0 (c :: rest) = scanGo (c :: acc) 0 rest := by
  simp only [scanGo, h]

theorem scanGo_cons_some {c : Nat} {rest cap after : Str}
    (h : matchHeaderAt (c :: rest) = some (cap, after)) (acc : Str) :
    scanGo acc 0 (c :: rest) = acc.reverse :: cap :: scanGo [] 0 after := by
  obtain ⟨hsuf, hlen⟩ := matchHeaderAt_some h
  obtain ⟨u, hu⟩ := hsuf
  have hune : u ≠ [] := by
    intro h0
    subst h0
    rw [List.nil_append] at hu
    rw [hu] at hlen
    exact absurd hlen (lt_irrefl _)
  obtain ⟨d, u', rfl⟩ : ∃ d u', u = d :: u' := by
    cases u with
    | nil => exact absurd rfl hune
    | cons x xs => exact ⟨_, _, rfl⟩
  rw [List.cons_append] at hu
  injection hu with hd hrest
  have harg : rest.drop ((c :: rest).length - after.length - 1) = after := by
    rw [← hrest, List.length_cons, List.length_append]
    rw [show u'.length + after.length + 1 - after.length - 1 = u'.length by omega]
    exact List.drop_left u' after
  simp only [scanGo, h]
  rw [scanGo_skip2, harg]

theorem noStrayB_spec {p R : Str} (h : noStrayB p R = true) :
    ∀ i, i < p.length → matchHeaderAt ((p ++ R).drop i) = none := by
  rw [noStrayB, List.all_eq_true] at h
  intro i hi
  exact Option.isNone_iff_eq_none.mp (h i (List.mem_range.mpr hi))

theorem scanGo_no_stray : ∀ (p R acc : Str),
    (∀ i, i < p.length → matchHeaderAt ((p ++ R).drop i) = none) →
    scanGo acc 0 (p ++ R) = scanGo (p.reverse ++ acc) 0 R := by
  intro p
  induction p with
  | nil => intro R acc _; simp
  | cons c p' ih =>
    intro R acc h
    have h0 : matchHeaderAt (c :: (p' ++ R)) = none := by
      have hh := h 0 (by simp)
      simpa using hh
    rw [List.cons_append, scanGo_cons_none h0]
    rw [ih R (c :: acc) (by
      intro i hi
      have hh := h (i + 1) (by simp only [List.length_cons]; omega)
      simpa [List.cons_append, List.drop_succ_cons] using hh)]
    simp [List.reverse_cons, List.append_assoc]

theorem upperChar_congr {x y : Nat} (h : lowerChar x = lowerChar y) :
    upperChar x = upperChar y := by
  unfold lowerChar at h
  unfold upperChar
  split_ifs at h ⊢ <;> omega

theorem toUpper_congr : ∀ (x y : Str), toLower x = toLower y → toUpper x = toUpper y := by
  intro x
  induction x with
  | nil =>
    intro y h
    cases y with
    | nil => rfl
    | cons b y' => exact absurd h (by simp [toLower])
  | cons a x' ih =>
    intro y h
    cases y with
    | nil => exact absurd h (by simp [toLower])
    | cons b y' =>
      simp only [toLower, List.map_cons, List.cons.injEq] at h
      obtain ⟨h1, h2⟩ := h
      simp only [toUpper, List.map_cons, List.cons.injEq]
      exact ⟨upperChar_congr h1, by
        have := ih y' (by simpa [toLower] using h2)
        simpa [toUpper] using this⟩

theorem variant_head_not_space {v p : Str} (hv : toLower v = toLower p) (c0 : Nat)
    (hp : (toLower p).head? = some c0) (hc0 : isSpace c0 = false) :
    ∀ c, v.head? = some c → isSpace c = false := by
  intro c hc
  have h1 : (toLower v).head? = some (lowerChar c) := by
    rw [toLower, List.head?_map, hc]
    rfl
  rw [hv, hp] at h1
  injection h1 with h2
  rw [← isSpace_lowerChar c, ← h2]
  exact hc0

theorem variant_last_not_space {v p : Str} (hv : toLower v = toLower p) (cl : Nat)
    (hp : (toLower p).getLast? = some cl) (hcl : isSpace cl = false) :
    ∀ c, v.getLast? = some c → isSpace c = false := by
  intro c hc
  have h1 : (toLower v).getLast? = some (lowerChar c) := by
    rw [toLower, List.getLast?_map, hc]
    rfl
  rw [hv, hp] at h1
  injection h1 with h2
  rw [← isSpace_lowerChar c, ← h2]
  exact hcl

theorem strip_variant {v p : Str} (hv : toLower v = toLower p) (c0 cl : Nat)
    (hph : (toLower p).head? = some c0) (hc0 : isSpace c0 = false)
    (hpl : (toLower p).getLast? = some cl) (hcl : isSpace cl = false) : strip v = v :=
  strip_eq_self_of v (variant_head_not_space hv c0 hph hc0)
    (variant_last_not_space hv cl hpl hcl)

theorem find?_phrases_eq (w rest' : Str) (k : SectionKind)
    (hw : toLower w = toLower (phraseOf k)) :
    phrases.find? (fun p => (toLower p).isPrefixOf (toLower (w ++ rest'))) =
      some (phraseOf k) := by
  have hlow : toLower (w ++ rest') = toLower (phraseOf k) ++ toLower rest' := by
    unfold toLower at hw ⊢
    rw [List.map_append, hw]
  have hpos : (toLower (phraseOf k)).isPrefixOf (toLower (w ++ rest')) = true := by
    rw [hlow]
    exact List.isPrefixOf_iff_prefix.mpr (List.prefix_append _ _)
  have hneg : ∀ q : Str, toLower q ≠ [] → (toLower q).head? ≠ (toLower (phraseOf k)).head? →
      (toLower q).isPrefixOf (toLower (w ++ rest')) = false := by
    intro q hqne hq
    rw [hlow]
    refine isPrefixOf_append_false _ hqne ?_ hq
    cases k <;> decide
  cases k with
  | security =>
    have e1 : (toLower (ofString "SECURITY ANALYSIS")).isPrefixOf (toLower (w ++ rest')) =
        true := hpos
    simp only [phrases, List.find?, e1]
    rfl
  | performance =>
    have e1 : (toLower (ofString "SECURITY ANALYSIS")).isPrefixOf (toLower (w ++ rest')) =
        false := hneg _ (by decide) (by decide)
    have e2 : (toLower (ofString "PERFORMANCE ANALYSIS")).isPrefixOf (toLower (w ++ rest')) =
        true := hpos
    simp only [phrases, List.find?, e1, e2]
    rfl
  | readability =>
    have e1 : (toLower (ofString "SECURITY ANALYSIS")).isPrefixOf (toLower (w ++ rest')) =
        false := hneg _ (by decide) (by decide)
    have e2 : (toLower (ofString "PERFORMANCE ANALYSIS")).isPrefixOf (toLower (w ++ rest')) =
        false := hneg _ (by decide) (by decide)
    have e3 : (toLower (ofString "READABILITY ANALYSIS")).isPrefixOf (toLower (w ++ rest')) =
        true := hpos
    simp only [phrases, List.find?, e1, e2, e3]
    rfl
  | summary =>
    have e1 : (toLower (ofString "SECURITY ANALYSIS")).isPrefixOf (toLower (w ++ rest')) =
        false := hneg _ (by decide) (by decide)
    have e2 : (toLower (ofString "PERFORMANCE ANALYSIS")).isPrefixOf (toLower (w ++ rest')) =
        false := hneg _ (by decide) (by decide)
    have e3 : (toLower (ofString "READABILITY ANALYSIS")).isPrefixOf (toLower (w ++ rest')) =
        false := hneg _ (by decide) (by decide)
    have e4 : (toLower (ofString "COMPREHENSIVE SUMMARY")).isPrefixOf (toLower (w ++ rest')) =
        true := hpos
    simp only [phrases, List.find?, e1, e2, e3, e4]
    rfl

theorem matchHeaderAt_header (k : SectionKind) (ws v rest : Str) (hws : ws ≠ [])
    (hall : ∀ c ∈ ws, isSpace c = true) (hv : toLower v = toLower (phraseOf k)) :
    matchHeaderAt (35 :: 35 :: (ws ++ (v ++ rest))) = some (v, rest) := by
  have hvlen : v.length = (phraseOf k).length := by
    have hh := congrArg List.length hv
    simpa [toLower] using hh
  have hvne : v ≠ [] := by
    intro h0
    subst h0
    have hk : (phraseOf k).length ≠ 0 := by cases k <;> decide
    exact hk (by simpa using hvlen.symm)
  obtain ⟨v0, v', rfl⟩ : ∃ v0 v', v = v0 :: v' := by
    cases v with
    | nil => exact absurd rfl hvne
    | cons x xs => exact ⟨_, _, rfl⟩
  have hv0space : isSpace v0 = false := by
    cases k with
    | security => exact variant_head_not_space hv 115 (by decide) (by decide) v0 rfl
    | performance => exact variant_head_not_space hv 112 (by decide) (by decide) v0 rfl
    | readability => exact variant_head_not_space hv 114 (by decide) (by decide) v0 rfl
    | summary => exact variant_head_not_space hv 99 (by decide) (by decide) v0 rfl
  have htake : (ws ++ ((v0 :: v') ++ rest)).takeWhile isSpace = ws := by
    rw [List.takeWhile_append_of_pos hall, List.cons_append, List.takeWhile_cons,
      if_neg (by simp [hv0space])]
    exact List.append_nil ws
  have hdrop : (ws ++ ((v0 :: v') ++ rest)).dropWhile isSpace = (v0 :: v') ++ rest := by
    rw [List.dropWhile_append_of_pos hall, List.cons_append, List.dropWhile_cons,
      if_neg (by simp [hv0space])]
  simp only [matchHeaderAt]
  rw [if_pos ⟨trivial, trivial⟩, htake, hdrop]
  rw [if_neg (by simp [hws])]
  rw [find?_phrases_eq (v0 :: v') rest k hv]
  simp only []
  rw [List.take_left' hvlen, List.drop_left' hvlen]

theorem wfPieces_cons {pc : Piece} {rest : List Piece} (h : wfPieces (pc :: rest) = true) :
    pc.ws ≠ [] ∧ (∀ c ∈ pc.ws, isSpace c = true) ∧
    toLower pc.v = toLower (phraseOf pc.kind) ∧
    noStrayB pc.body (restAssemble rest) = true ∧ wfPieces rest = true := by
  rw [wfPieces] at h
  simp only [Bool.and_eq_true] at h
  obtain ⟨⟨⟨⟨h1, h2⟩, h3⟩, h4⟩, h5⟩ := h
  refine ⟨?_, ?_, ?_, h4, h5⟩
  · simpa using h1
  · exact List.all_eq_true.mp h2
  · exact beq_iff_eq.mp h3

theorem scanGo_pieces : ∀ (ps : List Piece), wfPieces ps = true → ∀ acc : Str,
    scanGo acc 0 (restAssemble ps) =
      acc.reverse :: ps.flatMap (fun pc => [pc.v, pc.body]) := by
  intro ps
  induction ps with
  | nil => intro _ acc; rfl
  | cons pc rest ih =>
    intro hwf acc
    obtain ⟨hws, hall, hv, hstray, hwfr⟩ := wfPieces_cons hwf
    have hra : restAssemble (pc :: rest) =
        35 :: 35 :: (pc.ws ++ (pc.v ++ (pc.body ++ restAssemble rest))) := by
      rw [restAssemble, List.map_cons, List.flatten_cons, pieceText]
      simp [List.append_assoc, restAssemble]
    rw [hra,
      scanGo_cons_some
        (matchHeaderAt_header pc.kind pc.ws pc.v (pc.body ++ restAssemble rest) hws hall hv)
        acc,
      scanGo_no_stray pc.body (restAssemble rest) [] (noStrayB_spec hstray),
      ih hwfr]
    simp

theorem getK_setK_same (secs : Sections) (k : SectionKind) (t : Str) :
    getK (setK secs k t) k = t := by
  cases k <;> rfl

theorem getK_setK_ne (secs : Sections) (j k : SectionKind) (t : Str) (h : j ≠ k) :
    getK (setK secs j t) k = getK secs k := by
  cases j <;> cases k <;> first | rfl | exact absurd rfl h

theorem sectionUpdate_variant {k : SectionKind} {v : Str}
    (hv : toLower v = toLower (phraseOf k)) (secs : Sections) (content : Str) :
    sectionUpdate secs v content = setK secs k (strip content) := by
  have hstripv : strip v = v := by
    cases k with
    | security => exact strip_variant hv 115 115 (by decide) (by decide) (by decide) (by decide)
    | performance =>
      exact strip_variant hv 112 115 (by decide) (by decide) (by decide) (by decide)
    | readability =>
      exact strip_variant hv 114 115 (by decide) (by decide) (by decide) (by decide)
    | summary => exact strip_variant hv 99 121 (by decide) (by decide) (by decide) (by decide)
  have hupper : toUpper v = phraseOf k := by
    rw [toUpper_congr v (phraseOf k) hv]
    cases k <;> decide
  unfold sectionUpdate
  rw [hstripv, hupper]
  cases k with
  | security =>
    rw [if_pos (by decide)]
    rfl
  | performance =>
    rw [if_neg (by decide), if_pos (by decide)]
    rfl
  | readability =>
    rw [if_neg (by decide), if_neg (by decide), if_pos (by decide)]
    rfl
  | summary =>
    rw [if_neg (by decide), if_neg (by decide), if_neg (by decide), if_pos (by decide)]
    rfl

theorem pairLoop_pieces : ∀ (ps : List Piece), wfPieces ps = true → ∀ secs : Sections,
    pairLoop secs (ps.flatMap fun pc => [pc.v, pc.body]) =
      ps.foldl (fun s pc => setK s pc.kind (strip pc.body)) secs := by
  intro ps
  induction ps with
  | nil => intro _ secs; rfl
  | cons pc rest ih =>
    intro hwf secs
    obtain ⟨-, -, hv, -, hwfr⟩ := wfPieces_cons hwf
    rw [List.flatMap_cons, List.cons_append, List.cons_append, List.nil_append]
    rw [show pairLoop secs (pc.v :: pc.body :: rest.flatMap fun q => [q.v, q.body]) =
      pairLoop (sectionUpdate secs pc.v pc.body) (rest.flatMap fun q => [q.v, q.body]) from rfl]
    rw [sectionUpdate_variant hv, ih hwfr, List.foldl_cons]

theorem parse_sections_assembled (p₀ : Str) (ps : List Piece)
    (h₀ : noStrayB p₀ (restAssemble ps) = true) (hwf : wfPieces ps = true) :
    parse_sections (assemble p₀ ps) =
      ps.foldl (fun secs pc => setK secs pc.kind (strip pc.body)) ⟨[], [], [], []⟩ := by
  unfold parse_sections splitHeaders assemble
  rw [scanGo_no_stray p₀ (restAssemble ps) [] (noStrayB_spec h₀), scanGo_pieces ps hwf]
  exact pairLoop_pieces ps hwf _

theorem getK_foldl_not_mem : ∀ (l : List Piece) (secs : Sections) (k : SectionKind),
    (∀ pc ∈ l, pc.kind ≠ k) →
    getK (l.foldl (fun s pc => setK s pc.kind (strip pc.body)) secs) k = getK secs k := by
  intro l
  induction l with
  | nil => intro secs k _; rfl
  | cons pc rest ih =>
    intro secs k h
    rw [List.foldl_cons, ih _ _ (fun q hq => h q (List.mem_cons_of_mem _ hq))]
    exact getK_setK_ne _ _ _ _ (h pc (List.mem_cons_self _ _))

/-- C9 counterexample: with two `## SECURITY ANALYSIS` headers, the security
key holds the stripped text after the second match (`"b"`), not the stripped
text between the first match and the next matched header (`"a"`), so the
claim's per-header mapping fails as stated for that input. -/
theorem C9_counterexample :
    (parse_sections (ofString "## SECURITY ANALYSIS\na\n## SECURITY ANALYSIS\nb")).security ≠
      strip (ofString "\na\n") := by
  decide

/-- C9 (amended): `parse_sections` always yields a dictionary with exactly
the four keys (the `Sections` structure).  For any input decomposed as a
header-free prelude followed by matched-header pieces (each piece carrying
the text up to the next matched header or the end of the input): a kind with
no matched header maps to the empty string, and a kind whose last matched
header is followed by body text maps to that body text stripped — with
duplicate headers the last occurrence wins. -/
theorem C9_parse_sections_spec (p₀ : Str) (ps : List Piece)
    (h₀ : noStrayB p₀ (restAssemble ps) = true) (hwf : wfPieces ps = true) :
    (∀ k : SectionKind, (∀ pc ∈ ps, pc.kind ≠ k) →
      getK (parse_sections (assemble p₀ ps)) k = []) ∧
    (∀ (k : SectionKind) (l₁ : List Piece) (pc : Piece) (l₂ : List Piece),
      ps = l₁ ++ pc :: l₂ → pc.kind = k → (∀ q ∈ l₂, q.kind ≠ k) →
      getK (parse_sections (assemble p₀ ps)) k = strip pc.body) := by
  rw [parse_sections_assembled p₀ ps h₀ hwf]
  constructor
  · intro k hk
    rw [getK_foldl_not_mem ps _ k hk]
    cases k <;> rfl
  · intro k l₁ pc l₂ hps hkind hl₂
    subst hps
    rw [List.foldl_append, List.foldl_cons, getK_foldl_not_mem l₂ _ k hl₂, hkind,
      getK_setK_same]

theorem C9_parse_sections_spec_witness :
    getK (parse_sections (assemble (ofString "intro ")
      [⟨SectionKind.security, [32], ofString "Security Analysis", ofString "\nA\n"⟩,
       ⟨SectionKind.summary, [32], ofString "COMPREHENSIVE SUMMARY", ofString "\nB"⟩]))
      SectionKind.security = strip (ofString "\nA\n") :=
  (C9_parse_sections_spec (ofString "intro ")
      [⟨SectionKind.security, [32], ofString "Security Analysis", ofString "\nA\n"⟩,
       ⟨SectionKind.summary, [32], ofString "COMPREHENSIVE SUMMARY", ofString "\nB"⟩]
      (by decide) (by decide)).2 SectionKind.security
    [] ⟨SectionKind.security, [32], ofString "Security Analysis", ofString "\nA\n"⟩
    [⟨SectionKind.summary, [32], ofString "COMPREHENSIVE SUMMARY", ofString "\nB"⟩]
    rfl rfl (by decide)
